import Mathlib

/-
Verification of the option-management engine of libmcfp: the option
registry, the argument-vector parser (mcfp.hpp, config::parse), the
configuration-file parser (config::parse_config_file), the typed lookup
(config::get) and the paragraph wrapper (text.hpp, word_wrapper).

Strings from the C++ sources are embedded as `List Char`; an argument
vector is a `List (List Char)`.  The type-erased option storage
(std::any over the option_traits value types) is embedded as a closed
variant covering the two representative instantiations exercised here:
`int` (std::from_chars conversion, 32-bit range) and `std::string`
(identity conversion).
-/

namespace Mcfp

/-- Modelled from the spec: the error taxonomy of section 7.  The
repository's error.hpp (enum config_error and its error category) is not
under src/; only its callers in mcfp.hpp are.  Each error kind of the
spec is one constructor, so distinct kinds are distinct values.  The two
std::errc values produced by the numeric conversion path
(option_traits::set_value via from_chars) are kept as separate
constructors as well, since they travel through the same error channel. -/
inductive Err where
  | unknown_option
  | no_parameter
  | invalid_parameter_type
  | invalid_argument
  | option_does_not_accept_argument
  | missing_argument_for_option
  | option_not_specified
  | invalid_config_file
  | config_file_not_found
  | wrong_type_cast
  | errc_invalid_argument
  | errc_result_out_of_range
  deriving DecidableEq, Repr

/-- The value types of the embedded option_traits instantiations. -/
inductive Ty where
  | tInt
  | tStr
  deriving DecidableEq, Repr

/-- A stored option value (one slot of the type-erased storage). -/
inductive Value where
  | vInt (i : Int)
  | vStr (s : List Char)
  deriving DecidableEq, Repr

/-- detail::option_base / detail::option<T> / detail::multiple_option<T>
flattened into one record: identity and kind flags from option_base,
plus the stored value of option<T> (m_value) and the stored list of
multiple_option<T> (m_values). -/
structure Opt where
  name : List Char
  short : Option Char
  is_flag : Bool
  multi : Bool
  has_default : Bool
  ty : Ty
  seen : Nat
  value : Option Value
  values : List Value
  deriving DecidableEq, Repr

/-- mcfp::config together with its config_impl: the ordered option
list, the operand list and the ignore_unknown flag. -/
structure Config where
  options : List Opt
  operands : List (List Char)
  ignore_unknown : Bool
  deriving DecidableEq, Repr

/-- config_impl::get_option(std::string_view): first option whose
m_name equals the argument, with its position. -/
def findLongOpt : List Opt → List Char → Option (Nat × Opt)
  | [], _ => none
  | o :: os, nm =>
    if o.name = nm then some (0, o)
    else (findLongOpt os nm).map (fun p => (p.1 + 1, p.2))

/-- config_impl::get_option(char): first option whose m_short_name
equals the argument, with its position. -/
def findShortOpt : List Opt → Char → Option (Nat × Opt)
  | [], _ => none
  | o :: os, c =>
    if o.short = some c then some (0, o)
    else (findShortOpt os c).map (fun p => (p.1 + 1, p.2))

/-- Replace the option at one position, leaving the rest alone. -/
def modifyIdx : List Opt → Nat → (Opt → Opt) → List Opt
  | [], _, _ => []
  | o :: os, 0, f => f o :: os
  | o :: os, n + 1, f => o :: modifyIdx os n f

/-- ++opt->m_seen on the option at position i. -/
def incrSeen (cfg : Config) (i : Nat) : Config :=
  { cfg with options := modifyIdx cfg.options i (fun o => { o with seen := o.seen + 1 }) }

/-- Numeric value of a digit string. -/
def natOfDigits (ds : List Char) : Nat :=
  ds.foldl (fun a c => 10 * a + (c.toNat - 48)) 0

def intMax : Int := 2 ^ 31 - 1
def intMin : Int := -(2 ^ 31)

/-- std::from_chars for int as used by option_traits<T> for arithmetic
T (std_charconv): an optional minus sign followed by at least one
decimal digit; parsing stops at the first non-digit without error; no
digits is errc::invalid_argument; a value outside the 32-bit int range
is errc::result_out_of_range.  On error the traits function returns the
value-initialised value 0 (from_chars leaves the out variable alone). -/
def fromCharsInt (s : List Char) : Int × Option Err :=
  let p : Bool × List Char :=
    match s with
    | '-' :: r => (true, r)
    | r => (false, r)
  let ds := p.2.takeWhile Char.isDigit
  if ds = [] then (0, some .errc_invalid_argument)
  else
    let n : Int := (natOfDigits ds : Nat)
    let v : Int := if p.1 then -n else n
    if v < intMin ∨ intMax < v then (0, some .errc_result_out_of_range)
    else (v, none)

/-- option_traits<T>::set_value for the embedded value types. -/
def convert : Ty → List Char → Value × Option Err
  | .tInt, s => let r := fromCharsInt s; (.vInt r.1, r.2)
  | .tStr, s => (.vStr s, none)

/-- option<T>::set_value / multiple_option<T>::set_value: a single
option stores the converted value in m_value (overwriting), a multi
option appends it to m_values; the conversion error, if any, is
reported but the (value-initialised) result is stored regardless. -/
def optSetValue (o : Opt) (arg : List Char) : Opt × Option Err :=
  let r := convert o.ty arg
  if o.multi then ({ o with values := o.values ++ [r.1] }, r.2)
  else ({ o with value := some r.1 }, r.2)

/-- opt->set_value(arg, ec) on the option at position i. -/
def setValueAt (cfg : Config) (i : Nat) (arg : List Char) : Config × Option Err :=
  match cfg.options.get? i with
  | none => (cfg, none)
  | some o =>
    let r := optSetValue o arg
    ({ cfg with options := cfg.options.set i r.1 }, r.2)

/-- m_operands.emplace_back(arg). -/
def addOperand (cfg : Config) (t : List Char) : Config :=
  { cfg with operands := cfg.operands ++ [t] }

/-- Split a long-option token body at the first '=' sign
(config::parse, the s_arg.find of '=').  When no '=' is present the
inline value is the empty string, exactly as the C++ opt_arg
string_view stays empty in that case. -/
def splitEq : List Char → List Char × List Char
  | [] => ([], [])
  | c :: rest =>
    if c = '=' then ([], rest)
    else
      let r := splitEq rest
      (c :: r.1, r.2)

/-- The single-character option scan of config::parse: walk the
characters after the leading '-', incrementing seen counts of resolved
flags, until an unknown character errors (or is skipped under
ignore_unknown) or a value option is hit, in which case the rest of the
token is its inline value and scanning stops. -/
def shortScan (cfg : Config) : List Char → Config × Option Err × Option (Nat × List Char)
  | [] => (cfg, none, none)
  | c :: rest =>
    match findShortOpt cfg.options c with
    | none =>
      if cfg.ignore_unknown then shortScan cfg rest
      else (cfg, some .unknown_option, none)
    | some (i, o) =>
      if o.is_flag then shortScan (incrSeen cfg i) rest
      else (incrSeen cfg i, none, some (i, rest))

/-- Result of binding a value to a value option: the updated
configuration, the error if any, and the tokens still to process. -/
structure BindRes where
  cfg : Config
  err : Option Err
  rest : List (List Char)
  deriving Repr

/-- The common tail of config::parse for a value option: if the inline
value is empty the next token (if any) is consumed as the value; an
empty value is missing_argument_for_option; otherwise set_value runs
and its error, if any, stops the parse. -/
def bindVal (cfg : Config) (i : Nat) (inl : List Char) (ts : List (List Char)) : BindRes :=
  let p : List Char × List (List Char) :=
    if inl = [] then
      match ts with
      | v :: ts2 => (v, ts2)
      | [] => ([], [])
    else (inl, ts)
  if p.1 = [] then ⟨cfg, some .missing_argument_for_option, p.2⟩
  else
    let r := setValueAt cfg i p.1
    ⟨r.1, r.2, p.2⟩

/-- The token loop of config::parse (mcfp.hpp).  The Bool is the
State::operands flag.  The fuel argument only bounds the recursion; one
token is consumed per step, so tokens+1 units of fuel always suffice
(parseArgs below supplies them). -/
def parseLoopF : Nat → Config → Bool → List (List Char) → Config × Option Err
  | 0, cfg, _, _ => (cfg, none)
  | _ + 1, cfg, _, [] => (cfg, none)
  | fuel + 1, cfg, true, t :: ts => parseLoopF fuel (addOperand cfg t) true ts
  | fuel + 1, cfg, false, t :: ts =>
    match t with
    | [] => parseLoopF fuel (addOperand cfg t) false ts
    | t0 :: t1 =>
      if t0 = '-' then
        match t1 with
        | [] =>
          -- a lone "-": the short-option scan over no characters,
          -- which silently moves on
          parseLoopF fuel cfg false ts
        | r0 :: rest2 =>
          if r0 = '-' then
            if rest2 = [] then parseLoopF fuel cfg true ts
            else
              -- a long option --name[=value]
              let s := splitEq rest2
              match findLongOpt cfg.options s.1 with
              | none =>
                if cfg.ignore_unknown then parseLoopF fuel cfg false ts
                else (cfg, some .unknown_option)
              | some (i, o) =>
                if o.is_flag then
                  let cfg2 := incrSeen cfg i
                  if s.2 = [] then parseLoopF fuel cfg2 false ts
                  else (cfg2, some .option_does_not_accept_argument)
                else
                  let r := bindVal (incrSeen cfg i) i s.2 ts
                  match r.err with
                  | some e => (r.cfg, some e)
                  | none => parseLoopF fuel r.cfg false r.rest
          else
            -- single-character options
            let sc := shortScan cfg (r0 :: rest2)
            match sc.2.1 with
            | some e => (sc.1, some e)
            | none =>
              match sc.2.2 with
              | none => parseLoopF fuel sc.1 false ts
              | some (i, inl) =>
                let r := bindVal sc.1 i inl ts
                match r.err with
                | some e => (r.cfg, some e)
                | none => parseLoopF fuel r.cfg false r.rest
      else parseLoopF fuel (addOperand cfg t) false ts

/-- config::parse(argc, argv, ec): the first token is the program name
and is skipped. -/
def parseArgs (cfg : Config) (argv : List (List Char)) : Config × Option Err :=
  let ts := argv.drop 1
  parseLoopF (ts.length + 1) cfg false ts

/-! ## The typed lookup (config::get) -/

/-- The type requested from config::get<T>: a scalar value type or a
container of them (the any_cast target for a multiple_option). -/
inductive ReqTy where
  | rScalar (t : Ty)
  | rVec (t : Ty)
  deriving DecidableEq, Repr

/-- The std::any returned by option_base::get_value and overrides:
empty for a flag or an unset single option, the stored value for a set
single option, and the whole (possibly empty) m_values vector for a
multiple_option. -/
inductive AnyVal where
  | aNone
  | aOne (v : Value)
  | aMany (t : Ty) (vs : List Value)
  deriving DecidableEq, Repr

/-- get_value() of the option kinds: multiple_option always returns its
vector; option<T> returns m_value when set; option<void> (a flag, or an
unset option<T>) returns an empty any. -/
def optGetValue (o : Opt) : AnyVal :=
  if o.multi then .aMany o.ty o.values
  else
    match o.value with
    | some v => .aOne v
    | none => .aNone

/-- Runtime type of a stored scalar. -/
def valTy : Value → Ty
  | .vInt _ => .tInt
  | .vStr _ => .tStr

/-- Whether std::any_cast<T> on this any succeeds. -/
def castOk : AnyVal → ReqTy → Bool
  | .aOne v, .rScalar t => valTy v = t
  | .aMany t _, .rVec t2 => t = t2
  | _, _ => false

/-- config::get<T>(name, ec) (mcfp.hpp): unknown name is
unknown_option, an empty any is option_not_specified, a failing
any_cast is wrong_type_cast; otherwise the stored any is returned. -/
def getValueEc (cfg : Config) (nm : List Char) (T : ReqTy) : AnyVal × Option Err :=
  match findLongOpt cfg.options nm with
  | none => (.aNone, some .unknown_option)
  | some p =>
    let v := optGetValue p.2
    match v with
    | .aNone => (.aNone, some .option_not_specified)
    | _ => if castOk v T then (v, none) else (.aNone, some .wrong_type_cast)

/-! ## The configuration-file parser (config::parse_config_file) -/

/-- The states of the character-level state machine. -/
inductive CState where
  | nameStart
  | comment
  | cName
  | cAssign
  | valueStart
  | cValue
  deriving DecidableEq, Repr

/-- config::is_name_char: alphanumeric, underscore or dash. -/
def isNameChar (c : Char) : Bool :=
  c.isAlphanum ∨ c = '_' ∨ c = '-'

/-- config::is_eoln over the character stream; `none` is end-of-file. -/
def isEoln : Option Char → Bool
  | none => true
  | some c => c = '\n' ∨ c = '\r'

/-- End-of-line seen after a bare name (State::NAME or State::ASSIGN):
a resolved flag counts as seen, a resolved value option is
missing_argument_for_option, an unknown name errors unless unknown
options are ignored. -/
def finishBareName (cfg : Config) (nm : List Char) : Config × Option Err :=
  match findLongOpt cfg.options nm with
  | none =>
    if cfg.ignore_unknown then (cfg, none) else (cfg, some .unknown_option)
  | some (i, o) =>
    if o.is_flag then (incrSeen cfg i, none)
    else (cfg, some .missing_argument_for_option)

/-- End-of-line in State::VALUE_START or State::VALUE: a flag given a
value is option_does_not_accept_argument; a value option stores the
value and bumps its seen count only when the value is non-empty and the
option is fresh or multi; anything else is silently dropped. -/
def finishValue (cfg : Config) (nm val : List Char) : Config × Option Err :=
  match findLongOpt cfg.options nm with
  | none =>
    if cfg.ignore_unknown then (cfg, none) else (cfg, some .unknown_option)
  | some (i, o) =>
    if o.is_flag then (cfg, some .option_does_not_accept_argument)
    else if val ≠ [] ∧ (o.seen = 0 ∨ o.multi = true) then
      let r := setValueAt cfg i val
      (incrSeen r.1 i, r.2)
    else (cfg, none)

/-- One step of the state machine, carrying the machine state, the
accumulated name and value, and the configuration. -/
structure CfgStepRes where
  cfg : Config
  st : CState
  nm : List Char
  val : List Char
  err : Option Err
  deriving Repr

/-- The State::ASSIGN case.  State::NAME reaches it through sungetc
(the unread character is processed here directly). -/
def assignStep (cfg : Config) (nm val : List Char) (och : Option Char) : CfgStepRes :=
  if och = some '=' then ⟨cfg, .valueStart, nm, val, none⟩
  else if isEoln och then
    let r := finishBareName cfg nm
    ⟨r.1, .nameStart, nm, val, r.2⟩
  else if och = some ' ' ∨ och = some '\t' then ⟨cfg, .cAssign, nm, val, none⟩
  else ⟨cfg, .cAssign, nm, val, some .invalid_config_file⟩

/-- One character (or end-of-file) through the switch of
config::parse_config_file. -/
def cfgStep (cfg : Config) (st : CState) (nm val : List Char) (och : Option Char) : CfgStepRes :=
  match st with
  | .nameStart =>
    match och with
    | some c =>
      if isNameChar c then ⟨cfg, .cName, [c], [], none⟩
      else if c = '#' then ⟨cfg, .comment, nm, val, none⟩
      else if c = ' ' ∨ c = '\t' ∨ isEoln (some c) then ⟨cfg, .nameStart, nm, val, none⟩
      else ⟨cfg, .nameStart, nm, val, some .invalid_config_file⟩
    | none => ⟨cfg, .nameStart, nm, val, none⟩
  | .comment =>
    if isEoln och then ⟨cfg, .nameStart, nm, val, none⟩
    else ⟨cfg, .comment, nm, val, none⟩
  | .cName =>
    match och with
    | some c =>
      if isNameChar c then ⟨cfg, .cName, nm ++ [c], val, none⟩
      else if isEoln (some c) then
        let r := finishBareName cfg nm
        ⟨r.1, .nameStart, nm, val, r.2⟩
      else assignStep cfg nm val (some c)
    | none =>
      let r := finishBareName cfg nm
      ⟨r.1, .nameStart, nm, val, r.2⟩
  | .cAssign => assignStep cfg nm val och
  | .valueStart =>
    match och with
    | some c =>
      if isEoln (some c) then
        let r := finishValue cfg nm val
        ⟨r.1, .nameStart, nm, val, r.2⟩
      else if c = ' ' ∨ c = '\t' then ⟨cfg, .valueStart, nm, val, none⟩
      else ⟨cfg, .cValue, nm, [c], none⟩
    | none =>
      let r := finishValue cfg nm val
      ⟨r.1, .nameStart, nm, val, r.2⟩
  | .cValue =>
    match och with
    | some c =>
      if isEoln (some c) then
        let r := finishValue cfg nm val
        ⟨r.1, .nameStart, nm, val, r.2⟩
      else ⟨cfg, .cValue, nm, val ++ [c], none⟩
    | none =>
      let r := finishValue cfg nm val
      ⟨r.1, .nameStart, nm, val, r.2⟩

/-- The character loop: one sbumpc per step; eof is processed once at
the end of the stream, and an error stops consumption. -/
def cfgRun (cfg : Config) (st : CState) (nm val : List Char) : List Char → Config × Option Err
  | [] =>
    let r := cfgStep cfg st nm val none
    (r.cfg, r.err)
  | c :: cs =>
    let r := cfgStep cfg st nm val (some c)
    match r.err with
    | some e => (r.cfg, some e)
    | none => cfgRun r.cfg r.st r.nm r.val cs

/-- config::parse_config_file(std::istream, ec) over the file contents. -/
def parseConfigFile (cfg : Config) (text : List Char) : Config × Option Err :=
  cfgRun cfg .nameStart [] [] text

/-! ## The paragraph wrapper (text.hpp, word_wrapper) -/

/-- The line-break classes of word_wrapper::next_line_break. -/
inductive LBC where
  | OP | CL | CP | QU | EX | SY | IS | PR | PO | NU | AL | HY | BA | CM | WJ | MB | SP
  deriving DecidableEq, Repr

/-- Row/column index of a class in the break-action table. -/
def classIdx : LBC → Nat
  | .OP => 0 | .CL => 1 | .CP => 2 | .QU => 3 | .EX => 4 | .SY => 5 | .IS => 6
  | .PR => 7 | .PO => 8 | .NU => 9 | .AL => 10 | .HY => 11 | .BA => 12 | .CM => 13
  | .WJ => 14 | .MB => 15 | .SP => 16

/-- kASCII_LineBreakTable: the class of each of the 128 ASCII bytes,
row by row of 16 bytes (the literal is split into rows to keep
elaboration cheap). -/
def asciiLBTable : List LBC :=
  ([.CM, .CM, .CM, .CM, .CM, .CM, .CM, .CM,
    .CM, .BA, .MB, .MB, .MB, .SP, .CM, .CM] : List LBC) ++
  ([.CM, .CM, .CM, .CM, .CM, .CM, .CM, .CM,
    .CM, .CM, .CM, .CM, .CM, .CM, .CM, .CM] : List LBC) ++
  ([.SP, .EX, .QU, .AL, .PR, .PO, .AL, .QU,
    .OP, .CP, .AL, .PR, .IS, .HY, .IS, .SY] : List LBC) ++
  ([.NU, .NU, .NU, .NU, .NU, .NU, .NU, .NU,
    .NU, .NU, .IS, .IS, .AL, .AL, .AL, .EX] : List LBC) ++
  ([.AL, .AL, .AL, .AL, .AL, .AL, .AL, .AL,
    .AL, .AL, .AL, .AL, .AL, .AL, .AL, .AL] : List LBC) ++
  ([.AL, .AL, .AL, .AL, .AL, .AL, .AL, .AL,
    .AL, .AL, .AL, .OP, .PR, .CP, .AL, .AL] : List LBC) ++
  ([.AL, .AL, .AL, .AL, .AL, .AL, .AL, .AL,
    .AL, .AL, .AL, .AL, .AL, .AL, .AL, .AL] : List LBC) ++
  ([.AL, .AL, .AL, .AL, .AL, .AL, .AL, .AL,
    .AL, .AL, .AL, .OP, .BA, .CL, .AL, .CM] : List LBC)

/-- Class of a character: table lookup below 128, Alphabetic above. -/
def rawClass (c : Char) : LBC :=
  if c.toNat < 128 then asciiLBTable.getD c.toNat .AL else .AL

/-- The break actions of the pair table. -/
inductive BAct where
  | DBK | IBK | PBK | CIB | CPB
  deriving DecidableEq, Repr

/-- brkTable: break action for (current class, next class), classes
OP..WJ only. -/
def brkTable : List (List BAct) :=
  [[.PBK, .PBK, .PBK, .PBK, .PBK, .PBK, .PBK, .PBK, .PBK, .PBK, .PBK, .PBK, .PBK, .CPB, .PBK],
   [.DBK, .PBK, .PBK, .IBK, .PBK, .PBK, .PBK, .IBK, .IBK, .DBK, .DBK, .IBK, .IBK, .CIB, .PBK],
   [.DBK, .PBK, .PBK, .IBK, .PBK, .PBK, .PBK, .IBK, .IBK, .IBK, .IBK, .IBK, .IBK, .CIB, .PBK],
   [.PBK, .PBK, .PBK, .IBK, .PBK, .PBK, .PBK, .IBK, .IBK, .IBK, .IBK, .IBK, .IBK, .CIB, .PBK],
   [.DBK, .PBK, .PBK, .IBK, .PBK, .PBK, .PBK, .DBK, .DBK, .DBK, .DBK, .IBK, .IBK, .CIB, .PBK],
   [.DBK, .PBK, .PBK, .IBK, .PBK, .PBK, .PBK, .DBK, .DBK, .IBK, .DBK, .IBK, .IBK, .CIB, .PBK],
   [.DBK, .PBK, .PBK, .IBK, .PBK, .PBK, .PBK, .DBK, .DBK, .IBK, .IBK, .IBK, .IBK, .CIB, .PBK],
   [.IBK, .PBK, .PBK, .IBK, .PBK, .PBK, .PBK, .DBK, .DBK, .IBK, .IBK, .IBK, .IBK, .CIB, .PBK],
   [.IBK, .PBK, .PBK, .IBK, .PBK, .PBK, .PBK, .DBK, .DBK, .IBK, .IBK, .IBK, .IBK, .CIB, .PBK],
   [.DBK, .PBK, .PBK, .IBK, .PBK, .PBK, .PBK, .IBK, .IBK, .IBK, .IBK, .IBK, .IBK, .CIB, .PBK],
   [.DBK, .PBK, .PBK, .IBK, .PBK, .PBK, .PBK, .DBK, .DBK, .IBK, .IBK, .IBK, .IBK, .CIB, .PBK],
   [.DBK, .PBK, .PBK, .IBK, .PBK, .PBK, .PBK, .DBK, .DBK, .IBK, .DBK, .IBK, .IBK, .CIB, .PBK],
   [.DBK, .PBK, .PBK, .IBK, .PBK, .PBK, .PBK, .DBK, .DBK, .DBK, .DBK, .IBK, .IBK, .CIB, .PBK],
   [.DBK, .PBK, .PBK, .IBK, .PBK, .PBK, .PBK, .DBK, .DBK, .IBK, .IBK, .IBK, .IBK, .CIB, .PBK],
   [.IBK, .PBK, .PBK, .IBK, .PBK, .PBK, .PBK, .IBK, .IBK, .IBK, .IBK, .IBK, .IBK, .CIB, .PBK]]

/-- Table lookup for a class pair. -/
def brkAt (cls ncls : LBC) : BAct :=
  (brkTable.getD (classIdx cls) []).getD (classIdx ncls) .DBK

/-- The scan loop of next_line_break after the first character.  cls is
the class carried across spaces, lcls the class of the immediately
preceding character; pos is the index of the character under
examination; the result is the final iterator position. -/
def nlbGo (cls lcls : LBC) (pos : Nat) : List Char → Nat
  | [] => pos
  | c :: rest =>
    let nc := rawClass c
    if nc = .MB then pos + 1
    else if nc = .SP then nlbGo cls .SP (pos + 1) rest
    else if brkAt cls nc = .DBK ∨ (brkAt cls nc = .IBK ∧ lcls = .SP) then pos
    else nlbGo nc nc (pos + 1) rest

/-- word_wrapper::next_line_break: the number of characters up to and
including the next break opportunity.  A leading Space is reclassified
as WordJoiner; a leading MandatoryBreak ends the scan after one
character. -/
def nextLineBreak (l : List Char) : Nat :=
  match l with
  | [] => 0
  | c :: rest =>
    let cls0 := rawClass c
    let cls := if cls0 = .SP then .WJ else cls0
    if cls = .MB then 1
    else nlbGo cls cls 1 rest

/-- The break offsets after 0: repeated next_line_break until the line
is exhausted.  Fuel bounds the recursion; every call consumes at least
one character, so the line length suffices. -/
def offsetsAux : Nat → List Char → Nat → List Nat
  | 0, _, _ => []
  | fuel + 1, l, base =>
    if l = [] then []
    else
      let k := nextLineBreak l
      (base + k) :: offsetsAux fuel (l.drop k) (base + k)

/-- The offsets vector of wrap_line, including the leading 0. -/
def buildOffsets (l : List Char) : List Nat :=
  0 :: offsetsAux l.length l 0

/-- std::isspace in the C locale. -/
def isSpaceC (c : Char) : Bool :=
  c = ' ' ∨ c = '\t' ∨ c = '\n' ∨ c = '\x0b' ∨ c = '\x0c' ∨ c = '\r'

/-- The trailing-whitespace trim of the cost computation: the width w
of the segment starting at start, with trailing isspace characters
removed. -/
def trimW (line : List Char) (start : Nat) : Nat → Nat
  | 0 => 0
  | w + 1 =>
    if isSpaceC (line.getD (start + w) 'a') then trimW line start w
    else w + 1

/-- size_t arithmetic: SIZE_MAX and addition modulo 2^64, exactly as
the 64-bit unsigned cost accumulation of wrap_line behaves. -/
def SIZEMAX : Nat := 2 ^ 64 - 1

/-- The inner j-loop of the wrap_line dynamic programme for a fixed i.
The stop on w > width is the loop break; cost is minima[i] plus the
squared slack (only for non-final lines), computed in size_t
arithmetic. -/
def dpInnerGo (line : List Char) (offsets : List Nat) (width count i : Nat) :
    Nat → Nat → List Nat → List Nat → List Nat × List Nat
  | 0, _, m, b => (m, b)
  | fuel + 1, j, m, b =>
    if count < j then (m, b)
    else
      let w := offsets.getD j 0 - offsets.getD i 0
      if width < w then (m, b)
      else
        let wt := trimW line (offsets.getD i 0) w
        let cost :=
          if j < count then (m.getD i 0 + (width - wt) * (width - wt)) % 2 ^ 64
          else m.getD i 0
        if cost < m.getD j 0 then
          dpInnerGo line offsets width count i fuel (j + 1) (m.set j cost) (b.set j i)
        else dpInnerGo line offsets width count i fuel (j + 1) m b

/-- The outer i-loop of the dynamic programme, producing the final
minima and breaks vectors. -/
def dpOuter (line : List Char) (offsets : List Nat) (width count : Nat) :
    List Nat × List Nat :=
  (List.range count).foldl
    (fun mb i => dpInnerGo line offsets width count i (count + 1) (i + 1) mb.1 mb.2)
    (0 :: List.replicate count SIZEMAX, List.replicate (count + 1) 0)

/-- line.substr(offsets[i], offsets[j] - offsets[i]). -/
def sliceSeg (line : List Char) (a b : Nat) : List Char :=
  (line.drop a).take (b - a)

/-- The backward walk over breaks that recovers the chosen lines (in
reverse order).  Fuel bounds the walk; breaks entries are always
smaller than their index, so count steps suffice. -/
def rebuild (line : List Char) (offsets breaks : List Nat) : Nat → Nat → List (List Char)
  | 0, _ => []
  | fuel + 1, j =>
    if j = 0 then []
    else
      let i := breaks.getD j 0
      sliceSeg line (offsets.getD i 0) (offsets.getD j 0) ::
        rebuild line offsets breaks fuel i

/-- word_wrapper::wrap_line. -/
def wrapLine (width : Nat) (line : List Char) : List (List Char) :=
  let offsets := buildOffsets line
  let count := offsets.length - 1
  let mb := dpOuter line offsets width count
  (rebuild line offsets mb.2 (count + 1) count).reverse

/-- Splitting the input text on newlines, as the word_wrapper
constructor does with find: a trailing newline yields a trailing empty
line. -/
def splitLines : List Char → List (List Char)
  | [] => [[]]
  | c :: rest =>
    if c = '\n' then [] :: splitLines rest
    else
      match splitLines rest with
      | l :: ls => (c :: l) :: ls
      | [] => [[c]]

/-- The word_wrapper constructor: each newline-separated paragraph is
wrapped independently; an empty paragraph is one empty output line. -/
def wordWrap (text : List Char) (width : Nat) : List (List Char) :=
  ((splitLines text).map (fun line => if line = [] then [([] : List Char)] else wrapLine width line)).flatten

/-! ## Concrete sample registries used by witnesses and counterexamples -/

/-- A fresh single-valued int option named xy with short name x, as
built by make_option of int on the name given with a comma suffix. -/
def sampleIntOpt : Opt :=
  { name := ['x', 'y'], short := some 'x', is_flag := false, multi := false,
    has_default := false, ty := .tInt, seen := 0, value := none, values := [] }

/-- A flag named f (single-character name, so the short name is f). -/
def sampleFlagOpt : Opt :=
  { name := ['f'], short := some 'f', is_flag := true, multi := false,
    has_default := false, ty := .tStr, seen := 0, value := none, values := [] }

/-- A multi-valued string option named flavour with short name f. -/
def sampleMultiOpt : Opt :=
  { name := "flavour".toList, short := some 'f', is_flag := false, multi := true,
    has_default := false, ty := .tStr, seen := 0, value := none, values := [] }

/-- A fresh single-valued int option named n (single-character name). -/
def sampleNOpt : Opt :=
  { name := ['n'], short := some 'n', is_flag := false, multi := false,
    has_default := false, ty := .tInt, seen := 0, value := none, values := [] }

def intCfg : Config := { options := [sampleIntOpt], operands := [], ignore_unknown := false }
def flagCfg : Config := { options := [sampleFlagOpt], operands := [], ignore_unknown := false }
def multiCfg : Config := { options := [sampleMultiOpt], operands := [], ignore_unknown := false }
def nCfg : Config := { options := [sampleNOpt], operands := [], ignore_unknown := false }
def lenientCfg : Config := { options := [sampleIntOpt], operands := [], ignore_unknown := true }

/-- Fallback element for getD on option lists. -/
def dummyOpt : Opt :=
  { name := [], short := none, is_flag := true, multi := false,
    has_default := false, ty := .tStr, seen := 0, value := none, values := [] }

/-- The int option xy after it was given the value 42 once. -/
def setIntOpt : Opt := { sampleIntOpt with value := some (.vInt 42), seen := 1 }

def setIntCfg : Config := { options := [setIntOpt], operands := [], ignore_unknown := false }

/-- The second option list extends the first pointwise: every option
keeps its stored list of values as a prefix; previously stored
elements are never modified or removed, new ones only appended. -/
def valuesExtends (os os2 : List Opt) : Prop :=
  ∀ (i : Nat) (o : Opt), os[i]? = some o →
    ∃ (o2 : Opt) (suf : List Value), os2[i]? = some o2 ∧ o2.values = o.values ++ suf

/-! ## Helper lemmas about the token splitter and the resolvers -/

theorem splitEq_no_eq (s : List Char) (h : '=' ∉ s) : splitEq s = (s, []) := by
  induction s with
  | nil => rfl
  | cons c rest ih =>
    have hc : ¬ c = '=' := fun hc => h (by simp [hc])
    have hr : '=' ∉ rest := fun hm => h (List.mem_cons_of_mem _ hm)
    simp [splitEq, hc, ih hr]

theorem splitEq_append (n v : List Char) (h : '=' ∉ n) :
    splitEq (n ++ '=' :: v) = (n, v) := by
  induction n with
  | nil => simp [splitEq]
  | cons c rest ih =>
    have hc : ¬ c = '=' := fun hc => h (by simp [hc])
    have hr : '=' ∉ rest := fun hm => h (List.mem_cons_of_mem _ hm)
    simp [splitEq, hc, ih hr]

theorem findLongOpt_get (os : List Opt) (nm : List Char) (i : Nat) (o : Opt)
    (h : findLongOpt os nm = some (i, o)) : os[i]? = some o := by
  induction os generalizing i with
  | nil => simp [findLongOpt] at h
  | cons o0 os ih =>
    by_cases h0 : o0.name = nm
    · simp [findLongOpt, h0] at h
      obtain ⟨hi, ho⟩ := h
      subst hi; subst ho; simp
    · simp [findLongOpt, h0] at h
      obtain ⟨a, hp, hip⟩ := h
      subst hip
      simpa using ih a hp

theorem findShortOpt_get (os : List Opt) (c : Char) (i : Nat) (o : Opt)
    (h : findShortOpt os c = some (i, o)) : os[i]? = some o := by
  induction os generalizing i with
  | nil => simp [findShortOpt] at h
  | cons o0 os ih =>
    by_cases h0 : o0.short = some c
    · simp [findShortOpt, h0] at h
      obtain ⟨hi, ho⟩ := h
      subst hi; subst ho; simp
    · simp [findShortOpt, h0] at h
      obtain ⟨a, hp, hip⟩ := h
      subst hip
      simpa using ih a hp

theorem modifyIdx_get? (os : List Opt) (j : Nat) (g : Opt → Opt) (i : Nat) :
    (modifyIdx os j g)[i]? = if i = j then os[i]?.map g else os[i]? := by
  induction os generalizing i j with
  | nil => cases j <;> simp [modifyIdx]
  | cons o0 os ih =>
    cases j with
    | zero =>
      cases i with
      | zero => simp [modifyIdx]
      | succ k => simp [modifyIdx]
    | succ j2 =>
      cases i with
      | zero => simp [modifyIdx]
      | succ k => simpa [modifyIdx] using ih j2 k

theorem modifyIdx_set (os : List Opt) (j : Nat) (o2 : Opt) (g : Opt → Opt) :
    modifyIdx (os.set j o2) j g = os.set j (g o2) := by
  induction os generalizing j with
  | nil => cases j <;> rfl
  | cons o0 os ih =>
    cases j with
    | zero => rfl
    | succ j2 => simpa [modifyIdx] using ih j2

theorem findLongOpt_set (os : List Opt) (nm : List Char) (i : Nat) (o o2 : Opt)
    (h : findLongOpt os nm = some (i, o)) (hname : o2.name = o.name) :
    findLongOpt (os.set i o2) nm = some (i, o2) := by
  induction os generalizing i with
  | nil => simp [findLongOpt] at h
  | cons o0 os ih =>
    by_cases h0 : o0.name = nm
    · simp [findLongOpt, h0] at h
      obtain ⟨hi, ho⟩ := h
      subst hi; subst ho
      simp [findLongOpt, hname, h0]
    · simp [findLongOpt, h0] at h
      obtain ⟨a, hp, hip⟩ := h
      subst hip
      simp [List.set, findLongOpt, h0, ih a hp]

/-! ## The operand sink after the options state ends -/

theorem parseLoopF_operands (post : List (List Char)) :
    ∀ fuel cfg, post.length ≤ fuel →
      parseLoopF fuel cfg true post = ({ cfg with operands := cfg.operands ++ post }, none) := by
  induction post with
  | nil =>
    intro fuel cfg _
    cases fuel <;> simp [parseLoopF]
  | cons t ts ih =>
    intro fuel cfg h
    cases fuel with
    | zero => simp at h
    | succ f =>
      have hf : ts.length ≤ f := by simpa using h
      simp only [parseLoopF]
      rw [ih f (addOperand cfg t) hf]
      simp [addOperand]

/-- Claim C3: once the token consisting of two dashes is met in the
options state, every later token is appended verbatim to the operand
list (dash-leading ones included) and the two-dash token itself is not
appended; nothing else about the configuration changes and no error is
raised. -/
theorem claim_c3_double_dash_operands (cfg : Config) (post : List (List Char)) (fuel : Nat)
    (h : post.length + 1 ≤ fuel) :
    parseLoopF fuel cfg false (['-', '-'] :: post) =
      ({ cfg with operands := cfg.operands ++ post }, none) := by
  cases fuel with
  | zero => omega
  | succ f =>
    have hf : post.length ≤ f := by omega
    simp only [parseLoopF]
    norm_num
    exact parseLoopF_operands post f cfg hf

/-- Witness for claim C3 at a concrete registry and token list. -/
theorem claim_c3_witness :
    parseLoopF 3 intCfg false [['-', '-'], ['-', 'a'], ['-', '-', 'b']] =
      ({ intCfg with operands := intCfg.operands ++ [['-', 'a'], ['-', '-', 'b']] }, none) :=
  claim_c3_double_dash_operands intCfg [['-', 'a'], ['-', '-', 'b']] 3 (by decide)

/-- Claim C9: with ignore_unknown set, an unknown long option followed
by a non-dash token parses without error and the following token
becomes an operand; it is not consumed as the unknown option's
argument. -/
theorem claim_c9_ignore_unknown_keeps_operand (cfg : Config) (u t prog : List Char)
    (hig : cfg.ignore_unknown = true)
    (hu : u ≠ []) (hue : '=' ∉ u)
    (hL : findLongOpt cfg.options u = none)
    (ht : t.head? ≠ some '-') :
    parseArgs cfg [prog, '-' :: '-' :: u, t] =
      ({ cfg with operands := cfg.operands ++ [t] }, none) := by
  obtain ⟨u0, u1, rfl⟩ := List.exists_cons_of_ne_nil hu
  have h1 : parseArgs cfg [prog, '-' :: '-' :: u0 :: u1, t] = parseLoopF 2 cfg false [t] := by
    simp [parseArgs, parseLoopF, splitEq_no_eq _ hue, hL, hig]
  rw [h1]
  match t, ht with
  | [], _ => simp [parseLoopF, addOperand]
  | c :: r, ht =>
    have hc : ¬ c = '-' := by simpa using ht
    simp [parseLoopF, hc, addOperand]

/-- Witness for claim C9. -/
theorem claim_c9_witness :
    parseArgs lenientCfg ["p".toList, "--unknown".toList, "value".toList] =
      ({ lenientCfg with operands := lenientCfg.operands ++ ["value".toList] }, none) :=
  claim_c9_ignore_unknown_keeps_operand lenientCfg "unknown".toList "value".toList
    "p".toList (by decide) (by decide) (by decide) (by decide) (by decide)

/-- Claim C4 (amended): giving an inline value to a flag fails with
option_does_not_accept_argument, but the flag's seen count is still
incremented by one before the parse stops; the plain form succeeds and
increments the seen count by one. -/
theorem claim_c4_flag_inline_value (cfg : Config) (f x prog : List Char) (i : Nat) (o : Opt)
    (hf : f ≠ []) (hfe : '=' ∉ f) (hx : x ≠ [])
    (hL : findLongOpt cfg.options f = some (i, o))
    (hflag : o.is_flag = true) :
    parseArgs cfg [prog, '-' :: '-' :: (f ++ '=' :: x)] =
      (incrSeen cfg i, some .option_does_not_accept_argument) ∧
    parseArgs cfg [prog, '-' :: '-' :: f] = (incrSeen cfg i, none) ∧
    (incrSeen cfg i).options[i]? = some { o with seen := o.seen + 1 } := by
  obtain ⟨f0, f1, rfl⟩ := List.exists_cons_of_ne_nil hf
  have hsp : splitEq (f0 :: (f1 ++ '=' :: x)) = (f0 :: f1, x) := by
    simpa using splitEq_append (f0 :: f1) x hfe
  refine ⟨?_, ?_, ?_⟩
  · simp [parseArgs, parseLoopF, hsp, hL, hflag, hx]
  · simp [parseArgs, parseLoopF, splitEq_no_eq _ hfe, hL, hflag]
  · have hg := findLongOpt_get _ _ _ _ hL
    simp [incrSeen, modifyIdx_get?, hg]

/-- Counterexample for claim C4 as stated: parsing --f=x against a
fresh flag f does error with option_does_not_accept_argument, but the
seen count of f rises from 0 to 1 rather than staying unchanged. -/
theorem claim_c4_counterexample :
    (parseArgs flagCfg ["p".toList, "--f=x".toList]).2 =
        some Err.option_does_not_accept_argument ∧
    ((parseArgs flagCfg ["p".toList, "--f=x".toList]).1.options.getD 0 dummyOpt).seen = 1 ∧
    (flagCfg.options.getD 0 dummyOpt).seen = 0 := by decide

/-- Witness for the amended claim C4. -/
theorem claim_c4_witness :
    parseArgs flagCfg [['p'], '-' :: '-' :: (['f'] ++ '=' :: ['x'])] =
      (incrSeen flagCfg 0, some .option_does_not_accept_argument) ∧
    parseArgs flagCfg [['p'], '-' :: '-' :: ['f']] = (incrSeen flagCfg 0, none) ∧
    (incrSeen flagCfg 0).options[0]? =
      some { sampleFlagOpt with seen := sampleFlagOpt.seen + 1 } :=
  claim_c4_flag_inline_value flagCfg ['f'] ['x'] ['p'] 0 sampleFlagOpt
    (by decide) (by decide) (by decide) (by decide) (by decide)

/-- Claim C8: a long-option token ending in a bare '=' behaves exactly
like the token without the '=': the empty inline value is not bound;
the next token (when present and non-empty) is consumed and bound via
set_value, and a missing or empty next token is
missing_argument_for_option. -/
theorem claim_c8_empty_inline_value (cfg : Config) (n t prog : List Char) (i : Nat) (o : Opt)
    (hn : n ≠ []) (hne : '=' ∉ n)
    (hL : findLongOpt cfg.options n = some (i, o))
    (hnf : o.is_flag = false) :
    parseArgs cfg [prog, '-' :: '-' :: (n ++ ['=']), t] =
      parseArgs cfg [prog, '-' :: '-' :: n, t] ∧
    (t ≠ [] → parseArgs cfg [prog, '-' :: '-' :: (n ++ ['=']), t] =
      setValueAt (incrSeen cfg i) i t) ∧
    parseArgs cfg [prog, '-' :: '-' :: (n ++ ['='])] =
      (incrSeen cfg i, some .missing_argument_for_option) ∧
    parseArgs cfg [prog, '-' :: '-' :: (n ++ ['=']), []] =
      (incrSeen cfg i, some .missing_argument_for_option) := by
  obtain ⟨n0, n1, rfl⟩ := List.exists_cons_of_ne_nil hn
  have hsp : splitEq (n0 :: (n1 ++ ['='])) = (n0 :: n1, []) := by
    simpa using splitEq_append (n0 :: n1) [] hne
  refine ⟨?_, ?_, ?_, ?_⟩
  · simp [parseArgs, parseLoopF, hsp, splitEq_no_eq _ hne, hL, hnf]
  · intro htne
    rcases hr : setValueAt (incrSeen cfg i) i t with ⟨c2, e2⟩
    cases e2 <;>
      simp [parseArgs, parseLoopF, hsp, hL, hnf, bindVal, htne, hr]
  · simp [parseArgs, parseLoopF, hsp, hL, hnf, bindVal]
  · simp [parseArgs, parseLoopF, hsp, hL, hnf, bindVal]

/-- Witness for claim C8. -/
theorem claim_c8_witness :
    parseArgs intCfg [['p'], '-' :: '-' :: (['x', 'y'] ++ ['=']), ['4', '2']] =
      parseArgs intCfg [['p'], '-' :: '-' :: ['x', 'y'], ['4', '2']] ∧
    (['4', '2'] ≠ ([] : List Char) →
      parseArgs intCfg [['p'], '-' :: '-' :: (['x', 'y'] ++ ['=']), ['4', '2']] =
        setValueAt (incrSeen intCfg 0) 0 ['4', '2']) ∧
    parseArgs intCfg [['p'], '-' :: '-' :: (['x', 'y'] ++ ['='])] =
      (incrSeen intCfg 0, some .missing_argument_for_option) ∧
    parseArgs intCfg [['p'], '-' :: '-' :: (['x', 'y'] ++ ['=']), []] =
      (incrSeen intCfg 0, some .missing_argument_for_option) :=
  claim_c8_empty_inline_value intCfg ['x', 'y'] ['4', '2'] ['p'] 0 sampleIntOpt
    (by decide) (by decide) (by decide) (by decide)

/-- Claim C6: get with a name that resolves to an option whose stored
any holds a value of a type other than the requested one sets the
wrong_type_cast error; get on a resolved option with no stored value
and no default sets the option_not_specified error; the two error
values are distinct. -/
theorem claim_c6_get_error_kinds (cfg : Config) (nm : List Char) (T : ReqTy)
    (i : Nat) (o : Opt)
    (hL : findLongOpt cfg.options nm = some (i, o)) :
    (optGetValue o ≠ .aNone → castOk (optGetValue o) T = false →
      (getValueEc cfg nm T).2 = some .wrong_type_cast) ∧
    (o.multi = false → o.value = none → o.has_default = false →
      (getValueEc cfg nm T).2 = some .option_not_specified) ∧
    Err.wrong_type_cast ≠ Err.option_not_specified := by
  refine ⟨?_, ?_, by decide⟩
  · intro hv hcast
    rcases hov : optGetValue o with _ | v | ⟨t, vs⟩
    · exact absurd hov hv
    · rw [hov] at hcast
      simp [getValueEc, hL, hov, hcast]
    · rw [hov] at hcast
      simp [getValueEc, hL, hov, hcast]
  · intro hm hval _
    have hov : optGetValue o = .aNone := by simp [optGetValue, hm, hval]
    simp [getValueEc, hL, hov]

/-- Witness for claim C6 on a registry whose int option holds 42 while
a string is requested, and on a fresh registry with nothing stored. -/
theorem claim_c6_witness :
    ((optGetValue setIntOpt ≠ .aNone →
        castOk (optGetValue setIntOpt) (.rScalar .tStr) = false →
        (getValueEc setIntCfg ['x', 'y'] (.rScalar .tStr)).2 = some .wrong_type_cast) ∧
      (setIntOpt.multi = false → setIntOpt.value = none → setIntOpt.has_default = false →
        (getValueEc setIntCfg ['x', 'y'] (.rScalar .tStr)).2 = some .option_not_specified) ∧
      Err.wrong_type_cast ≠ Err.option_not_specified) ∧
    ((optGetValue sampleIntOpt ≠ .aNone →
        castOk (optGetValue sampleIntOpt) (.rScalar .tInt) = false →
        (getValueEc intCfg ['x', 'y'] (.rScalar .tInt)).2 = some .wrong_type_cast) ∧
      (sampleIntOpt.multi = false → sampleIntOpt.value = none →
        sampleIntOpt.has_default = false →
        (getValueEc intCfg ['x', 'y'] (.rScalar .tInt)).2 = some .option_not_specified) ∧
      Err.wrong_type_cast ≠ Err.option_not_specified) :=
  ⟨claim_c6_get_error_kinds setIntCfg ['x', 'y'] (.rScalar .tStr) 0 setIntOpt (by decide),
   claim_c6_get_error_kinds intCfg ['x', 'y'] (.rScalar .tInt) 0 sampleIntOpt (by decide)⟩

/-- Claim C1: for a value option with long name n and short name c,
the four spellings of passing a value v (inline after '=', as the next
token, glued to the short option, and as the token after the short
option) drive the registry to identical states, so the typed lookup
answers identically after each of them. -/
theorem claim_c1_four_spellings (cfg : Config) (n v prog : List Char) (c : Char)
    (i : Nat) (o : Opt) (T : ReqTy)
    (hn : n ≠ []) (hne : '=' ∉ n) (hc : c ≠ '-')
    (hL : findLongOpt cfg.options n = some (i, o))
    (hS : findShortOpt cfg.options c = some (i, o))
    (hnf : o.is_flag = false) :
    parseArgs cfg [prog, '-' :: '-' :: (n ++ '=' :: v)] =
      parseArgs cfg [prog, '-' :: '-' :: n, v] ∧
    parseArgs cfg [prog, '-' :: '-' :: (n ++ '=' :: v)] =
      parseArgs cfg [prog, '-' :: c :: v] ∧
    parseArgs cfg [prog, '-' :: '-' :: (n ++ '=' :: v)] =
      parseArgs cfg [prog, ['-', c], v] ∧
    getValueEc (parseArgs cfg [prog, '-' :: '-' :: (n ++ '=' :: v)]).1 n T =
      getValueEc (parseArgs cfg [prog, '-' :: '-' :: n, v]).1 n T ∧
    getValueEc (parseArgs cfg [prog, '-' :: '-' :: (n ++ '=' :: v)]).1 n T =
      getValueEc (parseArgs cfg [prog, '-' :: c :: v]).1 n T ∧
    getValueEc (parseArgs cfg [prog, '-' :: '-' :: (n ++ '=' :: v)]).1 n T =
      getValueEc (parseArgs cfg [prog, ['-', c], v]).1 n T := by
  obtain ⟨n0, n1, rfl⟩ := List.exists_cons_of_ne_nil hn
  have hsp : splitEq (n0 :: (n1 ++ '=' :: v)) = (n0 :: n1, v) := by
    simpa using splitEq_append (n0 :: n1) v hne
  have hsp0 : splitEq (n0 :: n1) = (n0 :: n1, []) := splitEq_no_eq _ hne
  have h12 : parseArgs cfg [prog, '-' :: '-' :: ((n0 :: n1) ++ '=' :: v)] =
      parseArgs cfg [prog, '-' :: '-' :: (n0 :: n1), v] := by
    cases v with
    | nil => simp [parseArgs, parseLoopF, hsp, hsp0, hL, hnf, bindVal]
    | cons v0 v1 =>
      rcases hr : setValueAt (incrSeen cfg i) i (v0 :: v1) with ⟨c2, e2⟩
      cases e2 <;> simp [parseArgs, parseLoopF, hsp, hsp0, hL, hnf, bindVal, hr]
  have h13 : parseArgs cfg [prog, '-' :: '-' :: ((n0 :: n1) ++ '=' :: v)] =
      parseArgs cfg [prog, '-' :: c :: v] := by
    cases v with
    | nil => simp [parseArgs, parseLoopF, hsp, hL, hS, hc, hnf, shortScan, bindVal]
    | cons v0 v1 =>
      rcases hr : setValueAt (incrSeen cfg i) i (v0 :: v1) with ⟨c2, e2⟩
      cases e2 <;>
        simp [parseArgs, parseLoopF, hsp, hL, hS, hc, hnf, shortScan, bindVal, hr]
  have h14 : parseArgs cfg [prog, '-' :: '-' :: ((n0 :: n1) ++ '=' :: v)] =
      parseArgs cfg [prog, ['-', c], v] := by
    cases v with
    | nil => simp [parseArgs, parseLoopF, hsp, hL, hS, hc, hnf, shortScan, bindVal]
    | cons v0 v1 =>
      rcases hr : setValueAt (incrSeen cfg i) i (v0 :: v1) with ⟨c2, e2⟩
      cases e2 <;>
        simp [parseArgs, parseLoopF, hsp, hL, hS, hc, hnf, shortScan, bindVal, hr]
  exact ⟨h12, h13, h14, by rw [h12], by rw [h13], by rw [h14]⟩

/-- Witness for claim C1 with the int option xy,x and the value 42. -/
theorem claim_c1_witness :
    parseArgs intCfg [['p'], '-' :: '-' :: (['x', 'y'] ++ '=' :: ['4', '2'])] =
      parseArgs intCfg [['p'], '-' :: '-' :: ['x', 'y'], ['4', '2']] ∧
    parseArgs intCfg [['p'], '-' :: '-' :: (['x', 'y'] ++ '=' :: ['4', '2'])] =
      parseArgs intCfg [['p'], '-' :: 'x' :: ['4', '2']] ∧
    parseArgs intCfg [['p'], '-' :: '-' :: (['x', 'y'] ++ '=' :: ['4', '2'])] =
      parseArgs intCfg [['p'], ['-', 'x'], ['4', '2']] ∧
    getValueEc (parseArgs intCfg [['p'], '-' :: '-' :: (['x', 'y'] ++ '=' :: ['4', '2'])]).1
        ['x', 'y'] (.rScalar .tInt) =
      getValueEc (parseArgs intCfg [['p'], '-' :: '-' :: ['x', 'y'], ['4', '2']]).1
        ['x', 'y'] (.rScalar .tInt) ∧
    getValueEc (parseArgs intCfg [['p'], '-' :: '-' :: (['x', 'y'] ++ '=' :: ['4', '2'])]).1
        ['x', 'y'] (.rScalar .tInt) =
      getValueEc (parseArgs intCfg [['p'], '-' :: 'x' :: ['4', '2']]).1
        ['x', 'y'] (.rScalar .tInt) ∧
    getValueEc (parseArgs intCfg [['p'], '-' :: '-' :: (['x', 'y'] ++ '=' :: ['4', '2'])]).1
        ['x', 'y'] (.rScalar .tInt) =
      getValueEc (parseArgs intCfg [['p'], ['-', 'x'], ['4', '2']]).1
        ['x', 'y'] (.rScalar .tInt) :=
  claim_c1_four_spellings intCfg ['x', 'y'] ['4', '2'] ['p'] 'x' 0 sampleIntOpt
    (.rScalar .tInt) (by decide) (by decide) (by decide) (by decide) (by decide) (by decide)

/-! ## Scan lemmas for the configuration-file state machine -/

theorem cfgRun_nameChars (n : List Char) :
    ∀ cfg acc val rest, (∀ c ∈ n, isNameChar c = true) →
      cfgRun cfg .cName acc val (n ++ rest) = cfgRun cfg .cName (acc ++ n) val rest := by
  induction n with
  | nil => intro cfg acc val rest _; simp
  | cons c0 n1 ih =>
    intro cfg acc val rest h
    have hc : isNameChar c0 = true := h c0 (by simp)
    have h1 : cfgRun cfg .cName acc val (c0 :: (n1 ++ rest)) =
        cfgRun cfg .cName (acc ++ [c0]) val (n1 ++ rest) := by
      simp [cfgRun, cfgStep, hc]
    rw [List.cons_append, h1, ih cfg (acc ++ [c0]) val rest (fun c hm => h c (by simp [hm]))]
    simp

theorem cfgRun_valueChars (v : List Char) :
    ∀ cfg nm acc rest, (∀ c ∈ v, isEoln (some c) = false) →
      cfgRun cfg .cValue nm acc (v ++ rest) = cfgRun cfg .cValue nm (acc ++ v) rest := by
  induction v with
  | nil => intro cfg nm acc rest _; simp
  | cons c0 v1 ih =>
    intro cfg nm acc rest h
    have hc : isEoln (some c0) = false := h c0 (by simp)
    have h1 : cfgRun cfg .cValue nm acc (c0 :: (v1 ++ rest)) =
        cfgRun cfg .cValue nm (acc ++ [c0]) (v1 ++ rest) := by
      simp [cfgRun, cfgStep, hc]
    rw [List.cons_append, h1, ih cfg nm (acc ++ [c0]) rest (fun c hm => h c (by simp [hm]))]
    simp

/-- Scanning a whole name from the NAME_START state: the stale name
and value accumulators are discarded and the name is collected. -/
theorem cfgRun_scanName (cfg : Config) (n nm0 val0 tail : List Char)
    (hn : n ≠ []) (hnc : ∀ c ∈ n, isNameChar c = true) :
    cfgRun cfg .nameStart nm0 val0 (n ++ tail) = cfgRun cfg .cName n [] tail := by
  obtain ⟨n0, n1, rfl⟩ := List.exists_cons_of_ne_nil hn
  have hc0 : isNameChar n0 = true := hnc n0 (by simp)
  have h1 : cfgRun cfg .nameStart nm0 val0 (n0 :: (n1 ++ tail)) =
      cfgRun cfg .cName [n0] [] (n1 ++ tail) := by
    simp [cfgRun, cfgStep, hc0]
  rw [List.cons_append, h1,
    cfgRun_nameChars n1 cfg [n0] [] tail (fun c hm => hnc c (by simp [hm]))]
  simp

/-- Scanning " = " and then a whole value after a name: the machine
passes through ASSIGN and VALUE_START and accumulates the value. -/
theorem cfgRun_scanValue (cfg : Config) (nm val0 v rest : List Char)
    (hv : v ≠ [])
    (hvh : v.headD 'a' ≠ ' ' ∧ v.headD 'a' ≠ '\t')
    (hvc : ∀ c ∈ v, isEoln (some c) = false) :
    cfgRun cfg .cName nm val0 (' ' :: '=' :: ' ' :: (v ++ rest)) =
      cfgRun cfg .cValue nm v rest := by
  obtain ⟨v0, v1, rfl⟩ := List.exists_cons_of_ne_nil hv
  have he : isEoln (some v0) = false := hvc v0 (by simp)
  have hsp : ¬ (v0 = ' ' ∨ v0 = '\t') := by
    rcases hvh with ⟨h1, h2⟩
    simp at h1 h2
    simp [h1, h2]
  have h1 : cfgRun cfg .cName nm val0 (' ' :: '=' :: ' ' :: (v0 :: (v1 ++ rest))) =
      cfgRun cfg .valueStart nm val0 (v0 :: (v1 ++ rest)) := rfl
  have h2 : cfgRun cfg .valueStart nm val0 (v0 :: (v1 ++ rest)) =
      cfgRun cfg .cValue nm [v0] (v1 ++ rest) := by
    simp [cfgRun, cfgStep, he, hsp]
  rw [List.cons_append, h1, h2,
    cfgRun_valueChars v1 cfg nm [v0] rest (fun c hm => hvc c (by simp [hm]))]
  simp

/-- Claim C10: a config-file line giving a registered value option an
empty value (name, equals sign, end of line) is silently accepted: no
error, no stored value, no seen-count change — the configuration is
returned unchanged. -/
theorem claim_c10_empty_config_value (cfg : Config) (n : List Char) (i : Nat) (o : Opt)
    (hn : n ≠ []) (hnc : ∀ c ∈ n, isNameChar c = true)
    (hL : findLongOpt cfg.options n = some (i, o))
    (hnf : o.is_flag = false) :
    parseConfigFile cfg (n ++ [' ', '=']) = (cfg, none) ∧
    parseConfigFile cfg (n ++ [' ', '=', '\n']) = (cfg, none) := by
  have hF : finishValue cfg n [] = (cfg, none) := by
    simp [finishValue, hL, hnf]
  constructor
  · rw [parseConfigFile, cfgRun_scanName cfg n [] [] [' ', '='] hn hnc]
    show ((finishValue cfg n []).1, (finishValue cfg n []).2) = (cfg, none)
    rw [hF]
  · rw [parseConfigFile, cfgRun_scanName cfg n [] [] [' ', '=', '\n'] hn hnc]
    have h2 : cfgRun cfg .cName n [] [' ', '=', '\n'] =
        (match (finishValue cfg n []).2 with
          | some e => ((finishValue cfg n []).1, some e)
          | none => cfgRun (finishValue cfg n []).1 .nameStart n [] []) := rfl
    rw [h2, hF]
    rfl

/-- Witness for claim C10. -/
theorem claim_c10_witness :
    parseConfigFile intCfg (['x', 'y'] ++ [' ', '=']) = (intCfg, none) ∧
    parseConfigFile intCfg (['x', 'y'] ++ [' ', '=', '\n']) = (intCfg, none) :=
  claim_c10_empty_config_value intCfg ['x', 'y'] 0 sampleIntOpt
    (by decide) (by decide) (by decide) (by decide)

/-- Counterexample for claim C2 as stated: the file with the two lines
giving n the values 1 and then 2 leaves the first value stored with no
error, but the seen count of n ends at 1, not at the claimed 2 — the
ignored second occurrence does not bump the count. -/
theorem claim_c2_counterexample :
    (parseConfigFile nCfg "n = 1\nn = 2".toList).2 = none ∧
    ((parseConfigFile nCfg "n = 1\nn = 2".toList).1.options.getD 0 dummyOpt).value =
      some (.vInt 1) ∧
    ((parseConfigFile nCfg "n = 1\nn = 2".toList).1.options.getD 0 dummyOpt).seen = 1 := by
  decide

/-- Claim C2 (amended): in a config file holding the two lines giving
the same fresh non-multi value option n first v1 and then v2, the
stored value after parsing is the conversion of v1 and no error is
raised; the second occurrence is ignored entirely, so the seen count
ends at 1, one increment for the first occurrence only. -/
theorem cfgRun_lineEof (cfg : Config) (nm0 val0 n v : List Char)
    (hn : n ≠ []) (hnc : ∀ c ∈ n, isNameChar c = true)
    (hv : v ≠ []) (hvh : v.headD 'a' ≠ ' ' ∧ v.headD 'a' ≠ '\t')
    (hvc : ∀ c ∈ v, isEoln (some c) = false) :
    cfgRun cfg .nameStart nm0 val0 (n ++ (' ' :: '=' :: ' ' :: v)) =
      ((finishValue cfg n v).1, (finishValue cfg n v).2) := by
  rw [cfgRun_scanName cfg n nm0 val0 _ hn hnc]
  have h4 := cfgRun_scanValue cfg n [] v [] hv hvh hvc
  simp only [List.append_nil] at h4
  rw [h4]
  rfl

theorem cfgRun_lineNl (cfg : Config) (nm0 val0 n v rest : List Char)
    (hn : n ≠ []) (hnc : ∀ c ∈ n, isNameChar c = true)
    (hv : v ≠ []) (hvh : v.headD 'a' ≠ ' ' ∧ v.headD 'a' ≠ '\t')
    (hvc : ∀ c ∈ v, isEoln (some c) = false) :
    cfgRun cfg .nameStart nm0 val0 (n ++ (' ' :: '=' :: ' ' :: (v ++ '\n' :: rest))) =
      (match (finishValue cfg n v).2 with
        | some e => ((finishValue cfg n v).1, some e)
        | none => cfgRun (finishValue cfg n v).1 .nameStart n v rest) := by
  rw [cfgRun_scanName cfg n nm0 val0 _ hn hnc,
    cfgRun_scanValue cfg n [] v ('\n' :: rest) hv hvh hvc]
  rfl

theorem claim_c2_first_occurrence_wins (cfg : Config) (n v1 v2 : List Char)
    (i : Nat) (o : Opt)
    (hn : n ≠ []) (hnc : ∀ c ∈ n, isNameChar c = true)
    (hv1 : v1 ≠ []) (hv2 : v2 ≠ [])
    (hc1 : ∀ c ∈ v1, isEoln (some c) = false) (hc2 : ∀ c ∈ v2, isEoln (some c) = false)
    (hh1 : v1.headD 'a' ≠ ' ' ∧ v1.headD 'a' ≠ '\t')
    (hh2 : v2.headD 'a' ≠ ' ' ∧ v2.headD 'a' ≠ '\t')
    (hL : findLongOpt cfg.options n = some (i, o))
    (hnf : o.is_flag = false) (hm : o.multi = false) (hs : o.seen = 0)
    (hcv : (convert o.ty v1).2 = none) :
    parseConfigFile cfg (n ++ (' ' :: '=' :: ' ' :: (v1 ++ ('\n' :: (n ++ (' ' :: '=' :: ' ' :: v2)))))) =
      ({ cfg with options := cfg.options.set i { o with value := some (convert o.ty v1).1, seen := 1 } }, none) := by
  have hgetE : cfg.options[i]? = some o := findLongOpt_get _ _ _ _ hL
  have hget : cfg.options.get? i = some o := by
    rw [List.get?_eq_getElem?]; exact hgetE
  have hF1 : finishValue cfg n v1 =
      ({ cfg with options := cfg.options.set i { o with value := some (convert o.ty v1).1, seen := 1 } }, none) := by
    simp only [finishValue, hL]
    simp only [setValueAt, hget]
    simp [optSetValue, hnf, hm, hv1, hs, hcv, incrSeen, modifyIdx_set]
  have hL2 : findLongOpt (cfg.options.set i { o with value := some (convert o.ty v1).1, seen := 1 }) n =
      some (i, { o with value := some (convert o.ty v1).1, seen := 1 }) :=
    findLongOpt_set cfg.options n i o _ hL rfl
  have hF2 : finishValue { cfg with options := cfg.options.set i { o with value := some (convert o.ty v1).1, seen := 1 } } n v2 =
      ({ cfg with options := cfg.options.set i { o with value := some (convert o.ty v1).1, seen := 1 } }, none) := by
    simp only [finishValue]
    rw [hL2]
    simp [hnf, hm]
  rw [parseConfigFile, cfgRun_lineNl cfg [] [] n v1 _ hn hnc hv1 hh1 hc1, hF1]
  show cfgRun { cfg with options := cfg.options.set i { o with value := some (convert o.ty v1).1, seen := 1 } } .nameStart n v1 (n ++ (' ' :: '=' :: ' ' :: v2)) =
    ({ cfg with options := cfg.options.set i { o with value := some (convert o.ty v1).1, seen := 1 } }, none)
  rw [cfgRun_lineEof _ n v1 n v2 hn hnc hv2 hh2 hc2, hF2]

/-- Witness for the amended claim C2. -/
theorem claim_c2_witness :
    parseConfigFile nCfg (['n'] ++ (' ' :: '=' :: ' ' :: (['1'] ++ ('\n' :: (['n'] ++ (' ' :: '=' :: ' ' :: ['2'])))))) =
      ({ nCfg with options := nCfg.options.set 0 { sampleNOpt with value := some (convert sampleNOpt.ty ['1']).1, seen := 1 } }, none) :=
  claim_c2_first_occurrence_wins nCfg ['n'] ['1'] ['2'] 0 sampleNOpt
    (by decide) (by decide) (by decide) (by decide) (by decide) (by decide)
    (by decide) (by decide) (by decide) (by decide) (by decide) (by decide) (by decide)

/-- Claim C5 at the failing input: at width 3 the wrapper emits the
paragraph "aa bbbbb cc" as one single line of untrimmed width 11, even
though the candidate break offsets are 0, 3, 9, 11 and the segment
from offset 0 to the first candidate break at offset 3 has width 3 —
an admissible shorter segment exists for that starting offset, and the
claimed first-break fallback line is not emitted either.  The SIZE_MAX
sentinel for the unreachable offset 9 propagates into the final column
of the dynamic programme without the wraparound that normally
compensates for it, so the backward walk falls through to the
default break entry 0. -/
theorem claim_c5_overflow_eval :
    wordWrap "aa bbbbb cc".toList 3 = ["aa bbbbb cc".toList] ∧
    ("aa bbbbb cc".toList).length = 11 ∧
    buildOffsets "aa bbbbb cc".toList = [0, 3, 9, 11] := by
  decide

/-! ## The append-only invariant of the stored value lists (claim C7) -/

theorem set_getElem?_self (os : List Opt) (j : Nat) (a o : Opt)
    (h : os[j]? = some o) : (os.set j a)[j]? = some a := by
  induction os generalizing j with
  | nil => simp at h
  | cons o0 os ih =>
    cases j with
    | zero => simp
    | succ k => simpa using ih k (by simpa using h)

theorem set_getElem?_ne (os : List Opt) (i j : Nat) (a : Opt) (hij : i ≠ j) :
    (os.set j a)[i]? = os[i]? := by
  induction os generalizing i j with
  | nil => simp
  | cons o0 os ih =>
    cases j with
    | zero =>
      cases i with
      | zero => omega
      | succ k => simp
    | succ jk =>
      cases i with
      | zero => simp
      | succ ik => simpa using ih ik jk (by omega)

theorem valuesExtends_refl (os : List Opt) : valuesExtends os os :=
  fun _ o h => ⟨o, [], h, by simp⟩

theorem valuesExtends_trans {os1 os2 os3 : List Opt}
    (h12 : valuesExtends os1 os2) (h23 : valuesExtends os2 os3) :
    valuesExtends os1 os3 := by
  intro i o h
  obtain ⟨o2, s2, hg2, hv2⟩ := h12 i o h
  obtain ⟨o3, s3, hg3, hv3⟩ := h23 i o2 hg2
  exact ⟨o3, s2 ++ s3, hg3, by rw [hv3, hv2, List.append_assoc]⟩

theorem valuesExtends_modifyIdx (os : List Opt) (j : Nat) (g : Opt → Opt)
    (hg : ∀ o, ∃ s, (g o).values = o.values ++ s) :
    valuesExtends os (modifyIdx os j g) := by
  intro i o h
  rw [modifyIdx_get?]
  by_cases hij : i = j
  · subst hij
    obtain ⟨s, hs⟩ := hg o
    exact ⟨g o, s, by simp [h], hs⟩
  · exact ⟨o, [], by simp [hij, h], by simp⟩

theorem valuesExtends_incrSeen (cfg : Config) (j : Nat) :
    valuesExtends cfg.options (incrSeen cfg j).options :=
  valuesExtends_modifyIdx _ j _ (fun o => ⟨[], by simp⟩)

theorem valuesExtends_setValueAt (cfg : Config) (j : Nat) (arg : List Char) :
    valuesExtends cfg.options (setValueAt cfg j arg).1.options := by
  rcases hg : cfg.options.get? j with _ | o
  · have hR : (setValueAt cfg j arg).1 = cfg := by
      unfold setValueAt
      rw [hg]
    rw [hR]
    exact valuesExtends_refl _
  · have hR : (setValueAt cfg j arg).1.options = cfg.options.set j (optSetValue o arg).1 := by
      unfold setValueAt
      rw [hg]
    rw [hR]
    have hgE : cfg.options[j]? = some o := by
      rw [← List.get?_eq_getElem?]
      exact hg
    intro i oi h
    by_cases hij : i = j
    · subst hij
      have hoi : oi = o := by
        rw [h] at hgE
        exact Option.some.inj hgE
      subst hoi
      by_cases hmu : oi.multi = true
      · exact ⟨_, [(convert oi.ty arg).1], set_getElem?_self _ _ _ _ h,
          by simp [optSetValue, hmu]⟩
      · exact ⟨_, [], set_getElem?_self _ _ _ _ h, by simp [optSetValue, hmu]⟩
    · refine ⟨oi, [], ?_, by simp⟩
      rw [set_getElem?_ne _ _ _ _ hij]
      exact h

/-- The configuration coming out of bindVal is either untouched or a
set_value result. -/
theorem bindVal_cfg_cases (cfg : Config) (i2 : Nat) (inl : List Char)
    (ts : List (List Char)) :
    (bindVal cfg i2 inl ts).cfg = cfg ∨
      ∃ a, (bindVal cfg i2 inl ts).cfg = (setValueAt cfg i2 a).1 := by
  by_cases hinl : inl = []
  · subst hinl
    cases ts with
    | nil => left; rfl
    | cons v ts2 =>
      by_cases hv : v = []
      · subst hv; left; rfl
      · right; exact ⟨v, by simp [bindVal, hv]⟩
  · right
    refine ⟨inl, ?_⟩
    simp [bindVal, hinl]

theorem valuesExtends_bindVal (cfg : Config) (i2 : Nat) (inl : List Char)
    (ts : List (List Char)) :
    valuesExtends cfg.options (bindVal cfg i2 inl ts).cfg.options := by
  rcases bindVal_cfg_cases cfg i2 inl ts with h | ⟨a, h⟩
  · rw [h]; exact valuesExtends_refl _
  · rw [h]; exact valuesExtends_setValueAt cfg i2 a

theorem valuesExtends_shortScan (chars : List Char) :
    ∀ cfg, valuesExtends cfg.options (shortScan cfg chars).1.options := by
  induction chars with
  | nil => intro cfg; exact valuesExtends_refl _
  | cons c rest ih =>
    intro cfg
    cases hf : findShortOpt cfg.options c with
    | none =>
      by_cases hig : cfg.ignore_unknown = true
      · have hred : shortScan cfg (c :: rest) = shortScan cfg rest := by
          simp [shortScan, hf, hig]
        rw [hred]
        exact ih cfg
      · have hred : shortScan cfg (c :: rest) = (cfg, some .unknown_option, none) := by
          simp [shortScan, hf, hig]
        rw [hred]
        exact valuesExtends_refl _
    | some p =>
      obtain ⟨i, o⟩ := p
      by_cases hfl : o.is_flag = true
      · have hred : shortScan cfg (c :: rest) = shortScan (incrSeen cfg i) rest := by
          simp [shortScan, hf, hfl]
        rw [hred]
        exact valuesExtends_trans (valuesExtends_incrSeen cfg i) (ih _)
      · have hred : shortScan cfg (c :: rest) = (incrSeen cfg i, none, some (i, rest)) := by
          simp [shortScan, hf, hfl]
        rw [hred]
        exact valuesExtends_incrSeen cfg i

theorem valuesExtends_parseLoopF (fuel : Nat) :
    ∀ cfg b ts, valuesExtends cfg.options (parseLoopF fuel cfg b ts).1.options := by
  induction fuel with
  | zero => intro cfg b ts; exact valuesExtends_refl _
  | succ f ih =>
    intro cfg b ts
    cases ts with
    | nil =>
      have hred : parseLoopF (f + 1) cfg b [] = (cfg, none) := by
        cases b <;> simp [parseLoopF]
      rw [hred]
      exact valuesExtends_refl _
    | cons t ts =>
      cases b with
      | true =>
        have hred : parseLoopF (f + 1) cfg true (t :: ts) =
            parseLoopF f (addOperand cfg t) true ts := by
          simp [parseLoopF]
        rw [hred]
        have h2 := ih (addOperand cfg t) true ts
        simpa only [addOperand] using h2
      | false =>
        cases t with
        | nil =>
          have hred : parseLoopF (f + 1) cfg false ([] :: ts) =
              parseLoopF f (addOperand cfg []) false ts := by
            simp [parseLoopF]
          rw [hred]
          simpa only [addOperand] using ih (addOperand cfg []) false ts
        | cons t0 t1 =>
          by_cases h0 : t0 = '-'
          case neg =>
            have hred : parseLoopF (f + 1) cfg false ((t0 :: t1) :: ts) =
                parseLoopF f (addOperand cfg (t0 :: t1)) false ts := by
              simp [parseLoopF, h0]
            rw [hred]
            simpa only [addOperand] using ih (addOperand cfg (t0 :: t1)) false ts
          case pos =>
            subst h0
            cases t1 with
            | nil =>
              have hred : parseLoopF (f + 1) cfg false (['-'] :: ts) =
                  parseLoopF f cfg false ts := by
                simp [parseLoopF]
              rw [hred]
              exact ih cfg false ts
            | cons r0 rest2 =>
              by_cases h1 : r0 = '-'
              case pos =>
                subst h1
                by_cases h2 : rest2 = []
                · subst h2
                  have hred : parseLoopF (f + 1) cfg false (['-', '-'] :: ts) =
                      parseLoopF f cfg true ts := by
                    simp [parseLoopF]
                  rw [hred]
                  exact ih cfg true ts
                · cases hfl : findLongOpt cfg.options (splitEq rest2).1 with
                  | none =>
                    by_cases hig : cfg.ignore_unknown = true
                    · have hred : parseLoopF (f + 1) cfg false (('-' :: '-' :: rest2) :: ts) =
                          parseLoopF f cfg false ts := by
                        simp [parseLoopF, h2, hfl, hig]
                      rw [hred]
                      exact ih cfg false ts
                    · have hred : parseLoopF (f + 1) cfg false (('-' :: '-' :: rest2) :: ts) =
                          (cfg, some .unknown_option) := by
                        simp [parseLoopF, h2, hfl, hig]
                      rw [hred]
                      exact valuesExtends_refl _
                  | some p =>
                    obtain ⟨i, o⟩ := p
                    by_cases hflag : o.is_flag = true
                    · by_cases hs2 : (splitEq rest2).2 = []
                      · have hred : parseLoopF (f + 1) cfg false (('-' :: '-' :: rest2) :: ts) =
                            parseLoopF f (incrSeen cfg i) false ts := by
                          simp [parseLoopF, h2, hfl, hflag, hs2]
                        rw [hred]
                        exact valuesExtends_trans (valuesExtends_incrSeen cfg i)
                          (ih (incrSeen cfg i) false ts)
                      · have hred : parseLoopF (f + 1) cfg false (('-' :: '-' :: rest2) :: ts) =
                            (incrSeen cfg i, some .option_does_not_accept_argument) := by
                          simp [parseLoopF, h2, hfl, hflag, hs2]
                        rw [hred]
                        exact valuesExtends_incrSeen cfg i
                    · rcases hbv : bindVal (incrSeen cfg i) i (splitEq rest2).2 ts
                        with ⟨cfg3, err3, ts3⟩
                      have hx : valuesExtends cfg.options cfg3.options := by
                        have h3 := valuesExtends_bindVal (incrSeen cfg i) i (splitEq rest2).2 ts
                        rw [hbv] at h3
                        exact valuesExtends_trans (valuesExtends_incrSeen cfg i) h3
                      cases err3 with
                      | some e =>
                        have hred : parseLoopF (f + 1) cfg false (('-' :: '-' :: rest2) :: ts) =
                            (cfg3, some e) := by
                          simp [parseLoopF, h2, hfl, hflag, hbv]
                        rw [hred]
                        exact hx
                      | none =>
                        have hred : parseLoopF (f + 1) cfg false (('-' :: '-' :: rest2) :: ts) =
                            parseLoopF f cfg3 false ts3 := by
                          simp [parseLoopF, h2, hfl, hflag, hbv]
                        rw [hred]
                        exact valuesExtends_trans hx (ih cfg3 false ts3)
              case neg =>
                rcases hsc : shortScan cfg (r0 :: rest2) with ⟨cfg2, err2, found2⟩
                have hsc2 : valuesExtends cfg.options cfg2.options := by
                  have h3 := valuesExtends_shortScan (r0 :: rest2) cfg
                  rw [hsc] at h3
                  exact h3
                cases err2 with
                | some e =>
                  have hred : parseLoopF (f + 1) cfg false (('-' :: r0 :: rest2) :: ts) =
                      (cfg2, some e) := by
                    simp [parseLoopF, h1, hsc]
                  rw [hred]
                  exact hsc2
                | none =>
                  cases found2 with
                  | none =>
                    have hred : parseLoopF (f + 1) cfg false (('-' :: r0 :: rest2) :: ts) =
                        parseLoopF f cfg2 false ts := by
                      simp [parseLoopF, h1, hsc]
                    rw [hred]
                    exact valuesExtends_trans hsc2 (ih cfg2 false ts)
                  | some p =>
                    obtain ⟨i, inl⟩ := p
                    rcases hbv : bindVal cfg2 i inl ts with ⟨cfg3, err3, ts3⟩
                    have hx : valuesExtends cfg.options cfg3.options := by
                      have h3 := valuesExtends_bindVal cfg2 i inl ts
                      rw [hbv] at h3
                      exact valuesExtends_trans hsc2 h3
                    cases err3 with
                    | some e =>
                      have hred : parseLoopF (f + 1) cfg false (('-' :: r0 :: rest2) :: ts) =
                          (cfg3, some e) := by
                        simp [parseLoopF, h1, hsc, hbv]
                      rw [hred]
                      exact hx
                    | none =>
                      have hred : parseLoopF (f + 1) cfg false (('-' :: r0 :: rest2) :: ts) =
                          parseLoopF f cfg3 false ts3 := by
                        simp [parseLoopF, h1, hsc, hbv]
                      rw [hred]
                      exact valuesExtends_trans hx (ih cfg3 false ts3)

theorem valuesExtends_finishBareName (cfg : Config) (nm : List Char) :
    valuesExtends cfg.options (finishBareName cfg nm).1.options := by
  cases hf : findLongOpt cfg.options nm with
  | none =>
    by_cases hig : cfg.ignore_unknown = true
    · have hred : finishBareName cfg nm = (cfg, none) := by simp [finishBareName, hf, hig]
      rw [hred]
      exact valuesExtends_refl _
    · have hred : finishBareName cfg nm = (cfg, some .unknown_option) := by
        simp [finishBareName, hf, hig]
      rw [hred]
      exact valuesExtends_refl _
  | some p =>
    obtain ⟨i, o⟩ := p
    by_cases hfl : o.is_flag = true
    · have hred : finishBareName cfg nm = (incrSeen cfg i, none) := by
        simp [finishBareName, hf, hfl]
      rw [hred]
      exact valuesExtends_incrSeen cfg i
    · have hred : finishBareName cfg nm = (cfg, some .missing_argument_for_option) := by
        simp [finishBareName, hf, hfl]
      rw [hred]
      exact valuesExtends_refl _

theorem valuesExtends_finishValue (cfg : Config) (nm val : List Char) :
    valuesExtends cfg.options (finishValue cfg nm val).1.options := by
  cases hf : findLongOpt cfg.options nm with
  | none =>
    by_cases hig : cfg.ignore_unknown = true
    · have hred : finishValue cfg nm val = (cfg, none) := by simp [finishValue, hf, hig]
      rw [hred]
      exact valuesExtends_refl _
    · have hred : finishValue cfg nm val = (cfg, some .unknown_option) := by
        simp [finishValue, hf, hig]
      rw [hred]
      exact valuesExtends_refl _
  | some p =>
    obtain ⟨i, o⟩ := p
    by_cases hfl : o.is_flag = true
    · have hred : finishValue cfg nm val = (cfg, some .option_does_not_accept_argument) := by
        simp [finishValue, hf, hfl]
      rw [hred]
      exact valuesExtends_refl _
    · by_cases hguard : val ≠ [] ∧ (o.seen = 0 ∨ o.multi = true)
      · have hred : finishValue cfg nm val =
            (incrSeen (setValueAt cfg i val).1 i, (setValueAt cfg i val).2) := by
          simp only [finishValue, hf]
          rw [if_neg hfl, if_pos hguard]
        rw [hred]
        exact valuesExtends_trans (valuesExtends_setValueAt cfg i val)
          (valuesExtends_incrSeen (setValueAt cfg i val).1 i)
      · have hred : finishValue cfg nm val = (cfg, none) := by
          simp only [finishValue, hf]
          rw [if_neg hfl, if_neg hguard]
        rw [hred]
        exact valuesExtends_refl _

theorem valuesExtends_assignStep (cfg : Config) (nm val : List Char) (och : Option Char) :
    valuesExtends cfg.options (assignStep cfg nm val och).cfg.options := by
  by_cases h1 : och = some '='
  · have hred : (assignStep cfg nm val och).cfg = cfg := by simp [assignStep, h1]
    rw [hred]
    exact valuesExtends_refl _
  · by_cases h2 : isEoln och = true
    · have hred : (assignStep cfg nm val och).cfg = (finishBareName cfg nm).1 := by
        simp [assignStep, h1, h2]
      rw [hred]
      exact valuesExtends_finishBareName cfg nm
    · by_cases h3 : och = some ' ' ∨ och = some '\t'
      · have hred : (assignStep cfg nm val och).cfg = cfg := by simp [assignStep, h1, h2, h3]
        rw [hred]
        exact valuesExtends_refl _
      · have hred : (assignStep cfg nm val och).cfg = cfg := by simp [assignStep, h1, h2, h3]
        rw [hred]
        exact valuesExtends_refl _

theorem valuesExtends_cfgStep (cfg : Config) (st : CState) (nm val : List Char)
    (och : Option Char) :
    valuesExtends cfg.options (cfgStep cfg st nm val och).cfg.options := by
  cases st with
  | nameStart =>
    cases och with
    | none => exact valuesExtends_refl _
    | some c =>
      have h2 : (cfgStep cfg .nameStart nm val (some c)).cfg = cfg := by
        simp only [cfgStep]
        split
        · rfl
        · split
          · rfl
          · split <;> rfl
      rw [h2]
      exact valuesExtends_refl _
  | comment =>
    have h2 : (cfgStep cfg .comment nm val och).cfg = cfg := by
      simp only [cfgStep]
      split <;> rfl
    rw [h2]
    exact valuesExtends_refl _
  | cName =>
    cases och with
    | none => exact valuesExtends_finishBareName cfg nm
    | some c =>
      by_cases h1 : isNameChar c = true
      · have h2 : (cfgStep cfg .cName nm val (some c)).cfg = cfg := by
          simp [cfgStep, h1]
        rw [h2]
        exact valuesExtends_refl _
      · by_cases h2 : isEoln (some c) = true
        · have h3 : (cfgStep cfg .cName nm val (some c)).cfg = (finishBareName cfg nm).1 := by
            simp [cfgStep, h1, h2]
          rw [h3]
          exact valuesExtends_finishBareName cfg nm
        · have h3 : (cfgStep cfg .cName nm val (some c)).cfg =
              (assignStep cfg nm val (some c)).cfg := by
            simp [cfgStep, h1, h2]
          rw [h3]
          exact valuesExtends_assignStep cfg nm val (some c)
  | cAssign => exact valuesExtends_assignStep cfg nm val och
  | valueStart =>
    cases och with
    | none => exact valuesExtends_finishValue cfg nm val
    | some c =>
      by_cases h1 : isEoln (some c) = true
      · have h3 : (cfgStep cfg .valueStart nm val (some c)).cfg = (finishValue cfg nm val).1 := by
          simp [cfgStep, h1]
        rw [h3]
        exact valuesExtends_finishValue cfg nm val
      · by_cases h2 : c = ' ' ∨ c = '\t'
        · have h3 : (cfgStep cfg .valueStart nm val (some c)).cfg = cfg := by
            simp [cfgStep, h1, h2]
          rw [h3]
          exact valuesExtends_refl _
        · have h3 : (cfgStep cfg .valueStart nm val (some c)).cfg = cfg := by
            simp [cfgStep, h1, h2]
          rw [h3]
          exact valuesExtends_refl _
  | cValue =>
    cases och with
    | none => exact valuesExtends_finishValue cfg nm val
    | some c =>
      by_cases h1 : isEoln (some c) = true
      · have h3 : (cfgStep cfg .cValue nm val (some c)).cfg = (finishValue cfg nm val).1 := by
          simp [cfgStep, h1]
        rw [h3]
        exact valuesExtends_finishValue cfg nm val
      · have h3 : (cfgStep cfg .cValue nm val (some c)).cfg = cfg := by
          simp [cfgStep, h1]
        rw [h3]
        exact valuesExtends_refl _

theorem valuesExtends_cfgRun (text : List Char) :
    ∀ cfg st nm val, valuesExtends cfg.options (cfgRun cfg st nm val text).1.options := by
  induction text with
  | nil => intro cfg st nm val; exact valuesExtends_cfgStep cfg st nm val none
  | cons c cs ih =>
    intro cfg st nm val
    rcases hst : cfgStep cfg st nm val (some c) with ⟨cfg2, st2, nm2, val2, err2⟩
    have hx : valuesExtends cfg.options cfg2.options := by
      have h3 := valuesExtends_cfgStep cfg st nm val (some c)
      rw [hst] at h3
      exact h3
    cases err2 with
    | some e =>
      have hred : cfgRun cfg st nm val (c :: cs) = (cfg2, some e) := by
        simp [cfgRun, hst]
      rw [hred]
      exact hx
    | none =>
      have hred : cfgRun cfg st nm val (c :: cs) = cfgRun cfg2 st2 nm2 val2 cs := by
        simp [cfgRun, hst]
      rw [hred]
      exact valuesExtends_trans hx (ih cfg2 st2 nm2 val2)

/-- Claim C7: multiple_option::set_value only appends the converted
occurrence value at the end of the stored list; under both parsers no
previously stored element of any option's value list is ever modified
or removed (the stored list of every option only grows at its end);
and the concrete spec scenario -faap -fnoot -fmies yields the ordered
list aap, noot, mies with a seen count of 3 — encounter order. -/
theorem claim_c7_multi_append_only :
    (∀ (o : Opt) (arg : List Char), o.multi = true →
      (optSetValue o arg).1.values = o.values ++ [(convert o.ty arg).1]) ∧
    (∀ fuel cfg b ts, valuesExtends cfg.options (parseLoopF fuel cfg b ts).1.options) ∧
    (∀ cfg text, valuesExtends cfg.options (parseConfigFile cfg text).1.options) ∧
    parseArgs multiCfg [['p'], "-faap".toList, "-fnoot".toList, "-fmies".toList] =
      ({ multiCfg with options := [{ sampleMultiOpt with seen := 3, values := [.vStr "aap".toList, .vStr "noot".toList, .vStr "mies".toList] }] }, none) := by
  refine ⟨?_, ?_, ?_, by decide⟩
  · intro o arg hm
    simp [optSetValue, hm]
  · intro fuel cfg b ts
    exact valuesExtends_parseLoopF fuel cfg b ts
  · intro cfg text
    exact valuesExtends_cfgRun text cfg _ _ _

/-- Witness for claim C7 at a concrete multi option and argument. -/
theorem claim_c7_witness :
    (optSetValue sampleMultiOpt "aap".toList).1.values =
      sampleMultiOpt.values ++ [(convert sampleMultiOpt.ty "aap".toList).1] :=
  claim_c7_multi_append_only.1 sampleMultiOpt "aap".toList (by decide)

end Mcfp
